import Mathlib

/-!
A verification development for the FMM core of the tectosaur repository.

The C++ sources embedded here:
* `tectosaur/fmm/fmm_impl.hpp` — `MatrixFreeOp::insert`, `CompressedInteractionList`,
  `count_interactions`, the `FMMConfig` struct and the `fmmmmmmm` entry point.
* `tectosaur/_fmm/_fmm.cpp` — the pybind bindings: `check_shape`, the `KDTree`
  constructor, the `FMMConfig` constructor, `direct_eval`, `FMMMat.eval`.
* `tectosaur/fmm_impl.hpp` (second half of the file) — `make_bsr_matrix`.

Parts of the repository referenced by the bindings but absent from the source
slice (`kdtree.cpp` with the KD-tree builder, `fmm_impl.cpp` with the dual-tree
traversal, `fmm_kernels.cpp` with `get_by_name`) are modelled from the
specification; each such definition carries a doc comment starting with
`Modelled from the spec:`.

Machine doubles are modelled as rationals; geometric distances are handled
through their squares so that everything stays executable, and the one theorem
that speaks about a Euclidean norm casts to the reals at the statement level.
-/

/-- A 3-dimensional point/vector with rational coordinates (stand-in for
`std::array<double,3>` / `Vec3`). -/
structure Vec3 where
  x : ℚ
  y : ℚ
  z : ℚ
deriving DecidableEq, Repr

/-- Squared Euclidean distance between two points.  The C++ code works with
`||a - b||`; we keep the square so the value stays rational. -/
def distSq (a b : Vec3) : ℚ :=
  (a.x - b.x) ^ 2 + (a.y - b.y) ^ 2 + (a.z - b.z) ^ 2

/-- The fields of a tree node that `MatrixFreeOp::insert` and
`count_interactions` read: the stable index `idx` and the half-open range
`[start, end)` into the reordered point array.  (`KDNode` in the source; the
`end` field is spelled `end_`.) -/
structure TNode where
  idx : ℕ
  start : ℕ
  end_ : ℕ
deriving DecidableEq, Repr

/-- `tectosaur/fmm/fmm_impl.hpp`, `struct MatrixFreeOp`: two parallel vectors
of observation-node and source-node indices. -/
structure MatrixFreeOp where
  obs_n_idx : List ℕ
  src_n_idx : List ℕ
deriving DecidableEq, Repr

/-- `MatrixFreeOp::insert` (`fmm/fmm_impl.hpp` lines 34-41): skip the pair when
either node owns no points, otherwise push both indices. -/
def MatrixFreeOp.insert (op : MatrixFreeOp) (obs_n src_n : TNode) : MatrixFreeOp :=
  if obs_n.end_ - obs_n.start = 0 ∨ src_n.end_ - src_n.start = 0 then op
  else { obs_n_idx := op.obs_n_idx ++ [obs_n.idx]
         src_n_idx := op.src_n_idx ++ [src_n.idx] }

/-- **C2.** `MatrixFreeOp::insert` appends the pair `(obs_n.idx, src_n.idx)` to
the operation's index vectors exactly when both nodes own at least one point
(`end − start > 0` on both sides); when either node is empty it returns the
operation unchanged, so an empty node contributes no entries to any list. -/
theorem c2_insert_appends_iff_nonempty (op : MatrixFreeOp) (obs_n src_n : TNode) :
    ((op.insert obs_n src_n).obs_n_idx = op.obs_n_idx ++ [obs_n.idx] ∧
       (op.insert obs_n src_n).src_n_idx = op.src_n_idx ++ [src_n.idx]
      ↔ 0 < obs_n.end_ - obs_n.start ∧ 0 < src_n.end_ - src_n.start) ∧
    (obs_n.end_ - obs_n.start = 0 ∨ src_n.end_ - src_n.start = 0 →
      op.insert obs_n src_n = op) := by
  constructor
  · constructor
    · intro h
      by_contra hne
      have hz : obs_n.end_ - obs_n.start = 0 ∨ src_n.end_ - src_n.start = 0 := by
        rcases Nat.eq_zero_or_pos (obs_n.end_ - obs_n.start) with h1 | h1
        · exact Or.inl h1
        rcases Nat.eq_zero_or_pos (src_n.end_ - src_n.start) with h2 | h2
        · exact Or.inr h2
        exact absurd ⟨h1, h2⟩ hne
      have hins : op.insert obs_n src_n = op := by
        simp [MatrixFreeOp.insert, hz]
      rw [hins] at h
      have := h.1
      simp at this
    · intro h
      have hz : ¬ (obs_n.end_ - obs_n.start = 0 ∨ src_n.end_ - src_n.start = 0) := by
        rintro (h1 | h1)
        · omega
        · omega
      simp [MatrixFreeOp.insert, hz]
  · intro hz
    simp [MatrixFreeOp.insert, hz]

/-- Witness for C2 at a concrete input: a nonempty pair is appended, and a pair
with an empty source node is skipped. -/
theorem c2_insert_appends_iff_nonempty_witness :
    (MatrixFreeOp.insert ⟨[], []⟩ ⟨5, 0, 2⟩ ⟨7, 2, 4⟩).obs_n_idx = [5] ∧
      MatrixFreeOp.insert ⟨[], []⟩ ⟨5, 0, 2⟩ ⟨7, 4, 4⟩ = ⟨[], []⟩ := by
  refine ⟨?_, ?_⟩
  · have h := (c2_insert_appends_iff_nonempty ⟨[], []⟩ ⟨5, 0, 2⟩ ⟨7, 2, 4⟩).1.2
      (by decide)
    simpa using h.1
  · exact (c2_insert_appends_iff_nonempty ⟨[], []⟩ ⟨5, 0, 2⟩ ⟨7, 4, 4⟩).2 (by decide)

/-- `tectosaur/fmm/fmm_impl.hpp`, `struct CompressedInteractionList`: the
CSR-like three-array form of an interaction list. -/
structure CompressedInteractionList where
  obs_n_idxs : List ℕ
  obs_src_starts : List ℕ
  src_n_idxs : List ℕ
deriving DecidableEq, Repr

/-- A tree as `count_interactions` sees it: just the flat node array. -/
structure TreeArr where
  nodes : List TNode
deriving DecidableEq, Repr

/-- Point count of node `i` of a tree: `n.end - n.start` after
`auto& n = tree.nodes[idx]`. -/
def nodeSize (t : TreeArr) (i : ℕ) : ℕ :=
  let nd := t.nodes.getD i ⟨0, 0, 0⟩
  nd.end_ - nd.start

/-- `count_interactions` (`fmm/fmm_impl.hpp` lines 50-74), loop for loop: the
outer loop runs over `obs_n_idxs`, the inner loop over
`j = obs_src_starts[i] .. obs_src_starts[i+1]`, accumulating `n_obs * n_src`
where each factor is `n_surf` for a surface side and the node's point count
otherwise. -/
def count_interactions (l : CompressedInteractionList) (obs_tree src_tree : TreeArr)
    (obs_surf src_surf : Bool) (n_surf : ℕ) : ℕ :=
  (List.range l.obs_n_idxs.length).foldl
    (fun n i =>
      (List.range' (l.obs_src_starts.getD i 0)
          (l.obs_src_starts.getD (i + 1) 0 - l.obs_src_starts.getD i 0)).foldl
        (fun m j =>
          m + (if obs_surf then n_surf else nodeSize obs_tree (l.obs_n_idxs.getD i 0)) *
              (if src_surf then n_surf else nodeSize src_tree (l.src_n_idxs.getD j 0)))
        n)
    0

/-- A left fold that only ever adds `f x` is the running sum of `f` over the
list. -/
theorem list_foldl_add_sum (g : ℕ → ℕ → ℕ) (f : ℕ → ℕ)
    (hg : ∀ a x, g a x = a + f x) (L : List ℕ) (init : ℕ) :
    L.foldl g init = init + (L.map f).sum := by
  induction L generalizing init with
  | nil => simp
  | cons a t ih => simp [List.foldl, hg, ih, add_assoc]

/-- Summing `f` over `List.range' a n` is summing `f (a + i)` over `i < n`. -/
theorem list_sum_map_range' (f : ℕ → ℕ) (n : ℕ) :
    ∀ a : ℕ, ((List.range' a n).map f).sum = ∑ i in Finset.range n, f (a + i) := by
  induction n with
  | zero => simp
  | succ m ih =>
      intro a
      rw [List.range'_succ, List.map_cons, List.sum_cons, ih (a + 1),
        Finset.sum_range_succ']
      have h0 : f (a + 0) = f a := by norm_num
      have hc : (∑ i in Finset.range m, f (a + 1 + i)) =
          ∑ i in Finset.range m, f (a + (i + 1)) :=
        Finset.sum_congr rfl (fun i _ => by congr 1; omega)
      rw [h0, hc]
      exact Nat.add_comm _ _

/-- Summing `f` over `List.range n` is the `Finset.range` sum. -/
theorem list_sum_map_range (f : ℕ → ℕ) (n : ℕ) :
    ((List.range n).map f).sum = ∑ i in Finset.range n, f i := by
  have h := list_sum_map_range' f n 0
  simpa [List.range_eq_range'] using h

/-- **C9.** `count_interactions` returns the sum, over all entries `(i, j)`
with `obs_src_starts[i] ≤ j < obs_src_starts[i+1]`, of `n_obs * n_src`, where
`n_obs` is `n_surf` when `obs_surf` and the point count of node
`obs_n_idxs[i]` otherwise, and `n_src` is `n_surf` when `src_surf` and the
point count of node `src_n_idxs[j]` otherwise. -/
theorem c9_count_interactions_eq (l : CompressedInteractionList)
    (obs_tree src_tree : TreeArr) (obs_surf src_surf : Bool) (n_surf : ℕ) :
    count_interactions l obs_tree src_tree obs_surf src_surf n_surf =
      ∑ i in Finset.range l.obs_n_idxs.length,
        ∑ j in Finset.Ico (l.obs_src_starts.getD i 0) (l.obs_src_starts.getD (i + 1) 0),
          (if obs_surf then n_surf else nodeSize obs_tree (l.obs_n_idxs.getD i 0)) *
          (if src_surf then n_surf else nodeSize src_tree (l.src_n_idxs.getD j 0)) := by
  have hinner : ∀ (a i : ℕ),
      (List.range' (l.obs_src_starts.getD i 0)
          (l.obs_src_starts.getD (i + 1) 0 - l.obs_src_starts.getD i 0)).foldl
        (fun m j =>
          m + (if obs_surf then n_surf else nodeSize obs_tree (l.obs_n_idxs.getD i 0)) *
              (if src_surf then n_surf else nodeSize src_tree (l.src_n_idxs.getD j 0)))
        a
      = a + ∑ j in Finset.Ico (l.obs_src_starts.getD i 0) (l.obs_src_starts.getD (i + 1) 0),
          (if obs_surf then n_surf else nodeSize obs_tree (l.obs_n_idxs.getD i 0)) *
          (if src_surf then n_surf else nodeSize src_tree (l.src_n_idxs.getD j 0)) := by
    intro a i
    rw [list_foldl_add_sum _
        (fun j =>
          (if obs_surf then n_surf else nodeSize obs_tree (l.obs_n_idxs.getD i 0)) *
          (if src_surf then n_surf else nodeSize src_tree (l.src_n_idxs.getD j 0)))
        (fun _ _ => rfl) _ a]
    rw [list_sum_map_range', Finset.sum_Ico_eq_sum_range]
  unfold count_interactions
  rw [list_foldl_add_sum _
      (fun i =>
        ∑ j in Finset.Ico (l.obs_src_starts.getD i 0) (l.obs_src_starts.getD (i + 1) 0),
          (if obs_surf then n_surf else nodeSize obs_tree (l.obs_n_idxs.getD i 0)) *
          (if src_surf then n_surf else nodeSize src_tree (l.src_n_idxs.getD j 0)))
      hinner _ 0]
  rw [list_sum_map_range]
  simp

/-- The kernel interface as `direct_eval` consumes it: a tensor dimension and
the tensor-valued pairwise entries.  `entry i d1 j d2` abstracts the value the
kernel produces for observation point `i` (component `d1`) against source
point `j` (component `d2`); the concrete kernel formulas are out of scope. -/
structure KernelE where
  tensor_dim : ℕ
  entry : ℕ → ℕ → ℕ → ℕ → ℚ

/-- Modelled from the spec: the batched kernel call `K.f(...)` of
`fmm_kernels.cpp` (not in the source slice).  Per the kernel interface it
fills `out` as a row-major array of shape `(n_obs, tensor_dim, n_src,
tensor_dim)`: flat index `((i*T + d1)*n_src + j)*T + d2` holds
`entry i d1 j d2`, which the definition recovers by decoding the flat index. -/
def kernelBatch (K : KernelE) (n_obs n_src : ℕ) : List ℚ :=
  (List.range (n_obs * K.tensor_dim * n_src * K.tensor_dim)).map (fun flat =>
    K.entry (flat / (K.tensor_dim * n_src * K.tensor_dim))
      ((flat / (K.tensor_dim * n_src)) % K.tensor_dim)
      ((flat / K.tensor_dim) % n_src)
      (flat % K.tensor_dim))

/-- `direct_eval` (`_fmm.cpp` lines 149-165): allocate a buffer of
`K.tensor_dim * K.tensor_dim * n_obs * n_src` doubles and fill it with a
single kernel call `K.f` on the full batch. -/
def direct_eval (K : KernelE) (n_obs n_src : ℕ) : List ℚ :=
  kernelBatch K n_obs n_src

/-- Reading a mapped range at an in-range position gives the mapped value. -/
theorem getD_map_range (f : ℕ → ℚ) (n k : ℕ) (hk : k < n) :
    ((List.range n).map f).getD k 0 = f k := by
  rw [List.getD_eq_getElem?_getD, List.getElem?_map, List.getElem?_range hk]
  rfl

/-- **C8.** `direct_eval` returns a flat buffer of length exactly
`n_obs * n_src * tensor_dim^2`, laid out row-major with shape
`(n_obs, T, n_src, T)`: position `((i*T + d1)*n_src + j)*T + d2` holds the
kernel entry for observation `i`, source `j`, tensor components `(d1, d2)`. -/
theorem c8_direct_eval_layout (K : KernelE) (n_obs n_src : ℕ) :
    (direct_eval K n_obs n_src).length = n_obs * n_src * K.tensor_dim ^ 2 ∧
    ∀ i d1 j d2, i < n_obs → d1 < K.tensor_dim → j < n_src → d2 < K.tensor_dim →
      (direct_eval K n_obs n_src).getD
          (((i * K.tensor_dim + d1) * n_src + j) * K.tensor_dim + d2) 0
        = K.entry i d1 j d2 := by
  constructor
  · simp [direct_eval, kernelBatch]
    ring
  · intro i d1 j d2 hi hd1 hj hd2
    set T := K.tensor_dim with hT
    have hTpos : 0 < T := Nat.lt_of_le_of_lt (Nat.zero_le _) hd2
    have hnspos : 0 < n_src := Nat.lt_of_le_of_lt (Nat.zero_le _) hj
    have hflat : ((i * T + d1) * n_src + j) * T + d2
        = d2 + T * (j + n_src * (d1 + T * i)) := by ring
    have h1 : d1 + T * i < T * n_obs := by
      calc d1 + T * i < T + T * i := by omega
        _ = T * (i + 1) := by ring
        _ ≤ T * n_obs := Nat.mul_le_mul_left _ (by omega)
    have h2 : j + n_src * (d1 + T * i) < n_src * (T * n_obs) := by
      calc j + n_src * (d1 + T * i) < n_src + n_src * (d1 + T * i) := by omega
        _ = n_src * ((d1 + T * i) + 1) := by ring
        _ ≤ n_src * (T * n_obs) := Nat.mul_le_mul_left _ (by omega)
    have h3 : d2 + T * (j + n_src * (d1 + T * i)) < T * (n_src * (T * n_obs)) := by
      calc d2 + T * (j + n_src * (d1 + T * i))
          < T + T * (j + n_src * (d1 + T * i)) := by omega
        _ = T * ((j + n_src * (d1 + T * i)) + 1) := by ring
        _ ≤ T * (n_src * (T * n_obs)) := Nat.mul_le_mul_left _ (by omega)
    have hbound : d2 + T * (j + n_src * (d1 + T * i)) < n_obs * T * n_src * T := by
      have : T * (n_src * (T * n_obs)) = n_obs * T * n_src * T := by ring
      omega
    rw [direct_eval, kernelBatch, hflat, getD_map_range _ _ _ hbound]
    have e1 : (d2 + T * (j + n_src * (d1 + T * i))) % T = d2 := by
      rw [Nat.add_mul_mod_self_left, Nat.mod_eq_of_lt hd2]
    have e2 : (d2 + T * (j + n_src * (d1 + T * i))) / T = j + n_src * (d1 + T * i) := by
      rw [Nat.add_mul_div_left _ _ hTpos, Nat.div_eq_of_lt hd2, Nat.zero_add]
    have e3 : (d2 + T * (j + n_src * (d1 + T * i))) / (T * n_src)
        = d1 + T * i := by
      rw [← Nat.div_div_eq_div_mul, e2, Nat.add_mul_div_left _ _ hnspos,
        Nat.div_eq_of_lt hj, Nat.zero_add]
    have e4 : (d2 + T * (j + n_src * (d1 + T * i))) / (T * n_src * T) = i := by
      rw [← Nat.div_div_eq_div_mul, e3, Nat.add_mul_div_left _ _ hTpos,
        Nat.div_eq_of_lt hd1, Nat.zero_add]
    rw [e1, e2, e3, e4]
    simp only [Nat.add_mul_mod_self_left]
    rw [Nat.mod_eq_of_lt hj, Nat.mod_eq_of_lt hd1]

/-- Witness for C8 at a concrete input: a two-component kernel on one
observation and two sources; the buffer has length `1 * 2 * 2^2 = 8` and
position `((0*2+1)*2+1)*2+0 = 6` holds `entry 0 1 1 0`. -/
theorem c8_direct_eval_layout_witness :
    (direct_eval ⟨2, fun i d1 j d2 => (i : ℚ) + 10 * d1 + 100 * j + 1000 * d2⟩ 1 2).length
        = 1 * 2 * 2 ^ 2 ∧
      (direct_eval ⟨2, fun i d1 j d2 => (i : ℚ) + 10 * d1 + 100 * j + 1000 * d2⟩ 1 2).getD
          (((0 * 2 + 1) * 2 + 1) * 2 + 0) 0 = (0 : ℚ) + 10 * 1 + 100 * 1 + 1000 * 0 := by
  have h := c8_direct_eval_layout
    ⟨2, fun i d1 j d2 => (i : ℚ) + 10 * d1 + 100 * j + 1000 * d2⟩ 1 2
  exact ⟨h.1, h.2 0 1 1 0 (by decide) (by decide) (by decide) (by decide)⟩

/-- A kernel descriptor as the configuration stores it: its name and tensor
dimension. -/
structure KernelDesc where
  name : String
  tensor_dim : ℕ
deriving DecidableEq, Repr

/-- Modelled from the spec: the kernel table behind `get_by_name`
(`fmm_kernels.cpp` is not in the source slice).  The spec's kernel family:
scalar kernels with tensor dimension 1 and the elastic kernels with tensor
dimension 3. -/
def kernelTable : List KernelDesc :=
  [⟨"one", 1⟩, ⟨"invr", 1⟩, ⟨"elasticU", 3⟩, ⟨"elasticT", 3⟩]

/-- Modelled from the spec: `get_by_name` — look a kernel up by name; an
unknown name is the only failure. -/
def get_by_name (k_name : String) : Option KernelDesc :=
  kernelTable.find? (fun k => k.name == k_name)

/-- `FMMConfig` (`fmm/fmm_impl.hpp` lines 10-24): `inner_r`, `outer_r`,
`order`, the kernel and its parameters.  The struct has no `mac` and no
`leaf_capacity` field; its comment merely notes that the MAC "needs to be
< 1/(check_r − 1)" and proposes using that value implicitly. -/
structure FMMConfig where
  inner_r : ℚ
  outer_r : ℚ
  order : ℕ
  kernel : KernelDesc
  params : List ℚ
deriving DecidableEq, Repr

/-- The pybind `FMMConfig.__init__` binding (`_fmm.cpp` lines 108-119): build
the struct from `(equiv_r, check_r, order, k_name, params)`.  The only
operation that can fail is the kernel lookup; no numeric field is validated. -/
def fmmconfig_init (equiv_r check_r : ℚ) (order : ℕ) (k_name : String)
    (params : List ℚ) : Option FMMConfig :=
  (get_by_name k_name).map (fun k => ⟨equiv_r, check_r, order, k, params⟩)

/-- **C3, counterexample.** A configuration violating two of the claimed
`InvalidConfig` conditions at once — `outer_r ≤ inner_r` (3 vs 11/10) and
`order < 2` (order 0) — is constructed without any error.  (A `mac ≥
1/(outer_r−1)` or `leaf_capacity < 1` violation cannot even be expressed: the
configuration has no such fields.) -/
theorem c3_no_invalid_config_error :
    fmmconfig_init 3 (11 / 10) 0 "invr" [] =
      some ⟨3, 11 / 10, 0, ⟨"invr", 1⟩, []⟩ := by
  rfl

/-- **C3, amended.** Constructing an `FMMConfig` performs no validation: for
every choice of radii, order and parameters it succeeds exactly when the
kernel name is known, returning the fields verbatim; an unknown kernel name is
the only build-time configuration failure.  (`mac` and `leaf_capacity` are not
configuration fields at all.) -/
theorem c3_fmmconfig_no_validation (equiv_r check_r : ℚ) (order : ℕ)
    (k_name : String) (params : List ℚ) :
    (∀ k, get_by_name k_name = some k →
      fmmconfig_init equiv_r check_r order k_name params =
        some ⟨equiv_r, check_r, order, k, params⟩) ∧
    (get_by_name k_name = none →
      fmmconfig_init equiv_r check_r order k_name params = none) := by
  constructor
  · intro k hk
    simp [fmmconfig_init, hk]
  · intro hk
    simp [fmmconfig_init, hk]

/-- Witness for the amended C3: the known kernel "invr" yields a config with
order 0; the unknown kernel name "nope" fails. -/
theorem c3_fmmconfig_no_validation_witness :
    fmmconfig_init 3 (11 / 10) 0 "invr" [] =
        some ⟨3, 11 / 10, 0, ⟨"invr", 1⟩, []⟩ ∧
      fmmconfig_init (11 / 10) 3 8 "nope" [] = none := by
  constructor
  · exact (c3_fmmconfig_no_validation 3 (11 / 10) 0 "invr" []).1 ⟨"invr", 1⟩ (by rfl)
  · exact (c3_fmmconfig_no_validation (11 / 10) 3 8 "nope" []).2 (by rfl)

/-- A numpy double array as the bindings inspect it: only its shape matters to
the checks. -/
structure NPArrayD where
  shape : List ℕ
deriving DecidableEq, Repr

/-- `check_shape` (`_fmm.cpp` lines 59-64): throw unless the array is
two-dimensional with second dimension 3. -/
def check_shape (arr : NPArrayD) : Except String Unit :=
  if arr.shape.length ≠ 2 ∨ arr.shape.getD 1 0 ≠ 3 then
    Except.error "parameter requires n x 3 array."
  else
    Except.ok ()

/-- The `KDTree.__init__` binding (`_fmm.cpp` lines 84-94): `check_shape` on
the points and on the normals, then construct with
`n = np_pts.request().shape[0]` — the normals count is taken to be the points
count and the two lengths are never compared.  The returned value is the point
count the constructor uses. -/
def kdtree_init (np_pts np_normals : NPArrayD) (n_per_cell : ℕ) : Except String ℕ :=
  match check_shape np_pts with
  | Except.error e => Except.error e
  | Except.ok _ =>
    match check_shape np_normals with
    | Except.error e => Except.error e
    | Except.ok _ => Except.ok (np_pts.shape.getD 0 0)

/-- The `FMMMat.eval` binding (`_fmm.cpp` lines 142-145): the density array is
reinterpreted as a raw pointer and handed to `m.eval` with no validation of
any kind; there is no check that can fail before the call. -/
def fmmmat_eval_checks (v : NPArrayD) : Except String Unit :=
  Except.ok ()

/-- **C7, counterexample.** A build call with 2 points but 3 normals — both
arrays well-formed `n x 3` — raises no error: the binding accepts it and uses
the points count 2 for both arrays, contradicting the claim that
`normals.length ≠ points.length` raises a `ShapeMismatch` at build time. -/
theorem c7_no_length_mismatch_error :
    kdtree_init ⟨[2, 3]⟩ ⟨[3, 3]⟩ 1 = Except.ok 2 := by
  rfl

/-- **C7, amended.** The only shape validation at build time is `check_shape`
on each array separately: the `KDTree` constructor succeeds if and only if
both the points and the normals arrays are two-dimensional with second
dimension 3 — their lengths are never compared (the points count is used for
both).  The `eval` binding checks nothing at all. -/
theorem c7_build_checks_shape_only (np_pts np_normals : NPArrayD) (cap : ℕ) :
    (kdtree_init np_pts np_normals cap = Except.ok (np_pts.shape.getD 0 0) ↔
      np_pts.shape.length = 2 ∧ np_pts.shape.getD 1 0 = 3 ∧
        np_normals.shape.length = 2 ∧ np_normals.shape.getD 1 0 = 3) ∧
    ∀ v : NPArrayD, fmmmat_eval_checks v = Except.ok () := by
  constructor
  · constructor
    · intro h
      by_cases h1 : np_pts.shape.length = 2 ∧ np_pts.shape.getD 1 0 = 3
      · by_cases h2 : np_normals.shape.length = 2 ∧ np_normals.shape.getD 1 0 = 3
        · exact ⟨h1.1, h1.2, h2.1, h2.2⟩
        · exfalso
          have hcs : check_shape np_normals =
              Except.error "parameter requires n x 3 array." := by
            rw [check_shape, if_pos]
            tauto
          rw [kdtree_init] at h
          rcases hok1 : check_shape np_pts with e | u
          · rw [hok1] at h; exact Except.noConfusion h
          · rw [hok1, hcs] at h; exact Except.noConfusion h
      · exfalso
        have hcs : check_shape np_pts =
            Except.error "parameter requires n x 3 array." := by
          rw [check_shape, if_pos]
          tauto
        rw [kdtree_init, hcs] at h
        exact Except.noConfusion h
    · rintro ⟨h1, h2, h3, h4⟩
      have hp : check_shape np_pts = Except.ok () := by
        rw [check_shape, if_neg]; tauto
      have hn : check_shape np_normals = Except.ok () := by
        rw [check_shape, if_neg]; tauto
      rw [kdtree_init, hp, hn]
  · intro v
    rfl

/-- Witness for the amended C7: mismatched lengths `2 ≠ 3` still satisfy the
right-hand side, so the build succeeds; a non-`n x 3` points array fails. -/
theorem c7_build_checks_shape_only_witness :
    kdtree_init ⟨[2, 3]⟩ ⟨[3, 3]⟩ 1 = Except.ok 2 ∧
      ¬ kdtree_init ⟨[2, 2]⟩ ⟨[3, 3]⟩ 1 = Except.ok 2 := by
  constructor
  · exact (c7_build_checks_shape_only ⟨[2, 3]⟩ ⟨[3, 3]⟩ 1).1.2
      ⟨by decide, by decide, by decide, by decide⟩
  · intro h
    have := (c7_build_checks_shape_only ⟨[2, 2]⟩ ⟨[3, 3]⟩ 1).1.1 h
    simp at this

/-- An input entry travelling through the tree build: a point, its normal, and
its original index.  Normals travel with their points under the permutation. -/
structure PtEntry where
  pt : Vec3
  normal : Vec3
  origIdx : ℕ
deriving DecidableEq, Repr

/-- Coordinate of a point along axis `ax` (0 = x, 1 = y, 2 = z). -/
def coordAx (v : Vec3) (ax : ℕ) : ℚ :=
  if ax = 0 then v.x else if ax = 1 then v.y else v.z

/-- Minimum coordinate of a nonempty entry list along `ax` (0 for empty). -/
def coordMin (l : List PtEntry) (ax : ℕ) : ℚ :=
  match l with
  | [] => 0
  | e :: t => t.foldl (fun m f => min m (coordAx f.pt ax)) (coordAx e.pt ax)

/-- Maximum coordinate of a nonempty entry list along `ax` (0 for empty). -/
def coordMax (l : List PtEntry) (ax : ℕ) : ℚ :=
  match l with
  | [] => 0
  | e :: t => t.foldl (fun m f => max m (coordAx f.pt ax)) (coordAx e.pt ax)

/-- Extent of the point set along an axis. -/
def extent (l : List PtEntry) (ax : ℕ) : ℚ :=
  coordMax l ax - coordMin l ax

/-- The splitting axis: the axis of longest extent of the actual points (ties
resolved toward the smaller axis index). -/
def splitAxis (l : List PtEntry) : ℕ :=
  if extent l 1 ≤ extent l 0 ∧ extent l 2 ≤ extent l 0 then 0
  else if extent l 2 ≤ extent l 1 then 1 else 2

/-- Center of the axis-aligned bounding box of the entries — the ball center.
(The spec allows any approximate smallest enclosing ball; only containment is
required.) -/
def boxCenter (l : List PtEntry) : Vec3 :=
  ⟨(coordMin l 0 + coordMax l 0) / 2,
   (coordMin l 1 + coordMax l 1) / 2,
   (coordMin l 2 + coordMax l 2) / 2⟩

/-- Squared ball radius: the largest squared distance from the ball center to
an entry (0 for the empty list), kept squared to stay rational. -/
def radiusSqOf (l : List PtEntry) : ℚ :=
  l.foldl (fun m e => max m (distSq e.pt (boxCenter l))) 0

/-- The split coordinate: the midpoint of the extent along the split axis. -/
def splitMid (l : List PtEntry) : ℚ :=
  (coordMin l (splitAxis l) + coordMax l (splitAxis l)) / 2

/-- A fold of `min` never exceeds its initial value. -/
theorem foldl_min_le_init {α : Type} (f : α → ℚ) (l : List α) :
    ∀ c : ℚ, l.foldl (fun m e => min m (f e)) c ≤ c := by
  induction l with
  | nil => intro c; simp
  | cons a t ih =>
      intro c
      calc t.foldl (fun m e => min m (f e)) (min c (f a)) ≤ min c (f a) := ih _
        _ ≤ c := min_le_left _ _

/-- A fold of `min` is bounded by every list element's value. -/
theorem foldl_min_le_mem {α : Type} (f : α → ℚ) (l : List α) :
    ∀ (c : ℚ) (e : α), e ∈ l → l.foldl (fun m e => min m (f e)) c ≤ f e := by
  induction l with
  | nil => intro c e he; cases he
  | cons a t ih =>
      intro c e he
      rcases List.mem_cons.mp he with rfl | ht
      · calc t.foldl (fun m x => min m (f x)) (min c (f e)) ≤ min c (f e) :=
              foldl_min_le_init f t _
          _ ≤ f e := min_le_right _ _
      · exact ih _ e ht

/-- A fold of `min` returns its initial value or some element's value. -/
theorem foldl_min_cases {α : Type} (f : α → ℚ) (l : List α) :
    ∀ c : ℚ, l.foldl (fun m e => min m (f e)) c = c ∨
      ∃ e ∈ l, l.foldl (fun m e => min m (f e)) c = f e := by
  induction l with
  | nil => intro c; exact Or.inl rfl
  | cons a t ih =>
      intro c
      rcases ih (min c (f a)) with h | ⟨e, he, h⟩
      · rcases min_cases c (f a) with ⟨hm, _⟩ | ⟨hm, _⟩
        · exact Or.inl (by rw [List.foldl_cons, h, hm])
        · exact Or.inr ⟨a, List.mem_cons_self a t, by rw [List.foldl_cons, h, hm]⟩
      · exact Or.inr ⟨e, List.mem_cons_of_mem a he, by rw [List.foldl_cons, h]⟩

/-- A fold of `max` never goes below its initial value. -/
theorem foldl_max_ge_init {α : Type} (f : α → ℚ) (l : List α) :
    ∀ c : ℚ, c ≤ l.foldl (fun m e => max m (f e)) c := by
  induction l with
  | nil => intro c; simp
  | cons a t ih =>
      intro c
      calc c ≤ max c (f a) := le_max_left _ _
        _ ≤ t.foldl (fun m e => max m (f e)) (max c (f a)) := ih _

/-- A fold of `max` dominates every list element's value. -/
theorem foldl_max_ge_mem {α : Type} (f : α → ℚ) (l : List α) :
    ∀ (c : ℚ) (e : α), e ∈ l → f e ≤ l.foldl (fun m e => max m (f e)) c := by
  induction l with
  | nil => intro c e he; cases he
  | cons a t ih =>
      intro c e he
      rcases List.mem_cons.mp he with rfl | ht
      · calc f e ≤ max c (f e) := le_max_right _ _
          _ ≤ t.foldl (fun m x => max m (f x)) (max c (f e)) := foldl_max_ge_init f t _
      · exact ih _ e ht

/-- A fold of `max` returns its initial value or some element's value. -/
theorem foldl_max_cases {α : Type} (f : α → ℚ) (l : List α) :
    ∀ c : ℚ, l.foldl (fun m e => max m (f e)) c = c ∨
      ∃ e ∈ l, l.foldl (fun m e => max m (f e)) c = f e := by
  induction l with
  | nil => intro c; exact Or.inl rfl
  | cons a t ih =>
      intro c
      rcases ih (max c (f a)) with h | ⟨e, he, h⟩
      · rcases max_cases c (f a) with ⟨hm, _⟩ | ⟨hm, _⟩
        · exact Or.inl (by rw [List.foldl_cons, h, hm])
        · exact Or.inr ⟨a, List.mem_cons_self a t, by rw [List.foldl_cons, h, hm]⟩
      · exact Or.inr ⟨e, List.mem_cons_of_mem a he, by rw [List.foldl_cons, h]⟩

/-- Every entry's coordinate is at least the list minimum. -/
theorem coordMin_le_mem (l : List PtEntry) (ax : ℕ) (e : PtEntry) (he : e ∈ l) :
    coordMin l ax ≤ coordAx e.pt ax := by
  cases l with
  | nil => cases he
  | cons a t =>
      rcases List.mem_cons.mp he with rfl | ht
      · exact foldl_min_le_init _ t _
      · exact foldl_min_le_mem _ t _ e ht

/-- Every entry's coordinate is at most the list maximum. -/
theorem coordMax_ge_mem (l : List PtEntry) (ax : ℕ) (e : PtEntry) (he : e ∈ l) :
    coordAx e.pt ax ≤ coordMax l ax := by
  cases l with
  | nil => cases he
  | cons a t =>
      rcases List.mem_cons.mp he with rfl | ht
      · exact foldl_max_ge_init _ t _
      · exact foldl_max_ge_mem _ t _ e ht

/-- The minimum coordinate of a nonempty list is attained. -/
theorem coordMin_attained (l : List PtEntry) (ax : ℕ) (hl : l ≠ []) :
    ∃ e ∈ l, coordMin l ax = coordAx e.pt ax := by
  cases l with
  | nil => exact absurd rfl hl
  | cons a t =>
      rcases foldl_min_cases (fun f => coordAx f.pt ax) t (coordAx a.pt ax) with h | ⟨e, he, h⟩
      · exact ⟨a, List.mem_cons_self a t, h⟩
      · exact ⟨e, List.mem_cons_of_mem a he, h⟩

/-- The maximum coordinate of a nonempty list is attained. -/
theorem coordMax_attained (l : List PtEntry) (ax : ℕ) (hl : l ≠ []) :
    ∃ e ∈ l, coordMax l ax = coordAx e.pt ax := by
  cases l with
  | nil => exact absurd rfl hl
  | cons a t =>
      rcases foldl_max_cases (fun f => coordAx f.pt ax) t (coordAx a.pt ax) with h | ⟨e, he, h⟩
      · exact ⟨a, List.mem_cons_self a t, h⟩
      · exact ⟨e, List.mem_cons_of_mem a he, h⟩

/-- The split axis has the longest extent of the three axes. -/
theorem extent_le_splitAxis (l : List PtEntry) :
    extent l 0 ≤ extent l (splitAxis l) ∧ extent l 1 ≤ extent l (splitAxis l) ∧
      extent l 2 ≤ extent l (splitAxis l) := by
  unfold splitAxis
  split_ifs with h1 h2
  · exact ⟨le_refl _, h1.1, h1.2⟩
  · rcases not_and_or.mp h1 with hA | hB
    · rw [not_le] at hA
      exact ⟨by linarith, le_refl _, h2⟩
    · rw [not_le] at hB
      exact ⟨by linarith, le_refl _, h2⟩
  · rw [not_le] at h2
    rcases not_and_or.mp h1 with hA | hB
    · rw [not_le] at hA
      exact ⟨by linarith, by linarith, le_refl _⟩
    · rw [not_le] at hB
      exact ⟨by linarith, by linarith, le_refl _⟩

/-- If some entry's coordinate differs from the box-center coordinate on axis
`ax ∈ {0,1,2}`, that axis has positive extent. -/
theorem extent_pos_of_ne_center (l : List PtEntry) (ax : ℕ) (hax : ax < 3)
    (e : PtEntry) (he : e ∈ l)
    (hne : coordAx e.pt ax ≠ coordAx (boxCenter l) ax) :
    0 < extent l ax := by
  have hmn := coordMin_le_mem l ax e he
  have hmx := coordMax_ge_mem l ax e he
  have hc : coordAx (boxCenter l) ax = (coordMin l ax + coordMax l ax) / 2 := by
    interval_cases ax <;> simp [coordAx, boxCenter]
  rw [hc] at hne
  rw [extent]
  by_contra hle
  push_neg at hle
  have heq : coordMax l ax = coordMin l ax := le_antisymm (by linarith) (by linarith)
  apply hne
  rw [heq]
  have h1 : coordAx e.pt ax = coordMin l ax := le_antisymm (heq ▸ hmx) hmn
  rw [h1]
  ring

/-- A nondegenerate set of entries (positive squared radius) has positive
extent along the split axis. -/
theorem extent_splitAxis_pos (l : List PtEntry) (hr : radiusSqOf l ≠ 0) :
    0 < extent l (splitAxis l) := by
  rcases foldl_max_cases (fun e => distSq e.pt (boxCenter l)) l 0 with h | ⟨e, he, h⟩
  · exact absurd h hr
  · have hd : distSq e.pt (boxCenter l) ≠ 0 := fun h0 => hr (by rw [radiusSqOf, h, h0])
    have hterm : e.pt.x ≠ (boxCenter l).x ∨ e.pt.y ≠ (boxCenter l).y ∨
        e.pt.z ≠ (boxCenter l).z := by
      by_contra hall
      push_neg at hall
      exact hd (by rw [distSq, hall.1, hall.2.1, hall.2.2]; ring)
    have hmax := extent_le_splitAxis l
    rcases hterm with hne | hne | hne
    · have := extent_pos_of_ne_center l 0 (by norm_num) e he (by simpa [coordAx] using hne)
      linarith [hmax.1]
    · have := extent_pos_of_ne_center l 1 (by norm_num) e he (by simpa [coordAx] using hne)
      linarith [hmax.2.1]
    · have := extent_pos_of_ne_center l 2 (by norm_num) e he (by simpa [coordAx] using hne)
      linarith [hmax.2.2]

/-- When the leaf guard fails, splitting at the extent midpoint along the
split axis strictly shrinks both sides: the minimum attainer goes left of the
midpoint and the maximum attainer goes right. -/
theorem split_both_smaller (entries : List PtEntry) (cap : ℕ)
    (h : ¬ (entries.length ≤ cap ∨ radiusSqOf entries = 0)) :
    (entries.filter (fun e => decide (coordAx e.pt (splitAxis entries) < splitMid entries))).length
        < entries.length ∧
      (entries.filter (fun e => ! decide (coordAx e.pt (splitAxis entries) < splitMid entries))).length
        < entries.length := by
  push_neg at h
  have hne : entries ≠ [] := by
    intro h0
    apply h.2
    rw [h0]
    rfl
  have hext : 0 < extent entries (splitAxis entries) := extent_splitAxis_pos entries h.2
  have hmm : coordMin entries (splitAxis entries) < coordMax entries (splitAxis entries) := by
    rw [extent] at hext
    linarith
  have hmnmid : coordMin entries (splitAxis entries) < splitMid entries := by
    rw [splitMid]
    linarith
  have hmidmx : splitMid entries < coordMax entries (splitAxis entries) := by
    rw [splitMid]
    linarith
  obtain ⟨emin, hmem1, hemin⟩ := coordMin_attained entries (splitAxis entries) hne
  obtain ⟨emax, hmem2, hemax⟩ := coordMax_attained entries (splitAxis entries) hne
  constructor
  · apply List.length_filter_lt_length_iff_exists.mpr
    refine ⟨emax, hmem2, ?_⟩
    have hgt : ¬ (coordAx emax.pt (splitAxis entries) < splitMid entries) := by
      rw [← hemax]
      linarith
    simp [hgt]
  · apply List.length_filter_lt_length_iff_exists.mpr
    refine ⟨emin, hmem1, ?_⟩
    have hlt : coordAx emin.pt (splitAxis entries) < splitMid entries := by
      rw [← hemin]
      exact hmnmid
    simp [hlt]

/-- A tree node of the builder's output (`KDNode` of `kdtree.hpp`): stable
index, point range, depth, height, leaf flag, bounding ball (center and
squared radius), and the indices of the children. -/
structure KDNode where
  idx : ℕ
  start : ℕ
  end_ : ℕ
  depth : ℕ
  height : ℕ
  is_leaf : Bool
  center : Vec3
  radiusSq : ℚ
  children : List ℕ
deriving DecidableEq, Repr

/-- Modelled from the spec: the recursive KD-tree partition of `kdtree.cpp`
(not in the source slice).  Given the entries of a node, its depth, its
position `startPos` in the reordered array and the next free node index, it
returns the nodes of the subtree in pre-order, the reordered entries, and the
subtree height.  A node is made a leaf when `end - start ≤ leaf_capacity` or
when its ball is degenerate (the spec's minimum-radius guard for coincident
points, exact-arithmetic form `radiusSq = 0`); otherwise the entries are
partitioned at the midpoint of the longest extent and the two children are
built recursively, the left child first. -/
def buildRec (cap : ℕ) (entries : List PtEntry) (depth startPos nextIdx : ℕ) :
    List KDNode × List PtEntry × ℕ :=
  if h : entries.length ≤ cap ∨ radiusSqOf entries = 0 then
    ([⟨nextIdx, startPos, startPos + entries.length, depth, 0, true,
        boxCenter entries, radiusSqOf entries, []⟩], entries, 0)
  else
    let ax := splitAxis entries
    let lefts := entries.filter (fun e => decide (coordAx e.pt ax < splitMid entries))
    let rights := entries.filter (fun e => ! decide (coordAx e.pt ax < splitMid entries))
    let lRes := buildRec cap lefts (depth + 1) startPos (nextIdx + 1)
    let rRes := buildRec cap rights (depth + 1) (startPos + lefts.length)
      (nextIdx + 1 + lRes.1.length)
    let ht := 1 + max lRes.2.2 rRes.2.2
    (⟨nextIdx, startPos, startPos + entries.length, depth, ht, false,
        boxCenter entries, radiusSqOf entries,
        [nextIdx + 1, nextIdx + 1 + lRes.1.length]⟩ :: (lRes.1 ++ rRes.1),
     lRes.2.1 ++ rRes.2.1, ht)
termination_by entries.length
decreasing_by
  · exact (split_both_smaller entries cap h).1
  · exact (split_both_smaller entries cap h).2

/-- The tree the builder returns (`KDTree` of `kdtree.hpp`): the flat node
array, the reordered points and normals, the permutation back to the original
order, and the tree height. -/
structure KDTree where
  nodes : List KDNode
  pts : List Vec3
  normals : List Vec3
  orig_idxs : List ℕ
  max_height : ℕ
deriving DecidableEq, Repr

/-- Modelled from the spec: `build_tree(points, normals, leaf_capacity)` — tag
every point with its normal and original index, run the recursive partition
from the root, and read the reordered arrays off the reordered entries. -/
def build_tree (pts normals : List Vec3) (cap : ℕ) : KDTree :=
  let entries := (List.range pts.length).map
    (fun i => PtEntry.mk (pts.getD i ⟨0, 0, 0⟩) (normals.getD i ⟨0, 0, 0⟩) i)
  let res := buildRec cap entries 0 0 0
  { nodes := res.1
    pts := res.2.1.map (fun e => e.pt)
    normals := res.2.1.map (fun e => e.normal)
    orig_idxs := res.2.1.map (fun e => e.origIdx)
    max_height := res.2.2 }

/-- The builder permutes the entries it is given: the reordered entry list is
a permutation of the input entries. -/
theorem buildRec_perm (cap : ℕ) (entries : List PtEntry) (depth startPos nextIdx : ℕ) :
    ((buildRec cap entries depth startPos nextIdx).2.1).Perm entries := by
  induction entries, depth, startPos, nextIdx using buildRec.induct with
  | cap => exact cap
  | case1 entries depth startPos nextIdx h =>
      have hc : entries.length ≤ cap ∨ radiusSqOf entries = 0 := h
      rw [buildRec, dif_pos hc]
  | case2 entries depth startPos nextIdx h ax lefts rights lRes ih1 ih2 ih3 =>
      have hc : ¬ (entries.length ≤ cap ∨ radiusSqOf entries = 0) := h
      rw [buildRec, dif_neg hc]
      simp only
      exact (List.Perm.append ih1 ih3).trans (List.filter_append_perm _ entries)

/-- Every node the builder emits is a leaf exactly when its point count is at
most the capacity or its ball is degenerate. -/
theorem buildRec_leaf_iff (cap : ℕ) (entries : List PtEntry) (depth startPos nextIdx : ℕ) :
    ∀ nd ∈ (buildRec cap entries depth startPos nextIdx).1,
      nd.is_leaf = true ↔ (nd.end_ - nd.start ≤ cap ∨ nd.radiusSq = 0) := by
  induction entries, depth, startPos, nextIdx using buildRec.induct with
  | cap => exact cap
  | case1 entries depth startPos nextIdx h =>
      have hc : entries.length ≤ cap ∨ radiusSqOf entries = 0 := h
      intro nd hnd
      rw [buildRec, dif_pos hc] at hnd
      rcases List.mem_singleton.mp hnd with rfl
      constructor
      · intro _
        simpa [Nat.add_sub_cancel_left] using hc
      · intro _
        rfl
  | case2 entries depth startPos nextIdx h ax lefts rights lRes ih1 ih2 ih3 =>
      have hc : ¬ (entries.length ≤ cap ∨ radiusSqOf entries = 0) := h
      intro nd hnd
      rw [buildRec, dif_neg hc] at hnd
      simp only [List.mem_cons, List.mem_append] at hnd
      rcases hnd with rfl | hnd | hnd
      · constructor
        · intro hleaf
          simp at hleaf
        · intro hcond
          exfalso
          apply hc
          simpa [Nat.add_sub_cancel_left] using hcond
      · exact ih1 nd hnd
      · exact ih3 nd hnd

/-- **C4.** In every tree built by `build_tree`, a node is a leaf if and only
if its point count is at most `leaf_capacity` — with the single exception the
spec carves out: a node whose points are all coincident (degenerate bounding
ball, `radiusSq = 0`) is a leaf even when the capacity is exceeded. -/
theorem c4_leaf_iff_capacity (pts normals : List Vec3) (cap : ℕ) :
    ∀ nd ∈ (build_tree pts normals cap).nodes,
      nd.is_leaf = true ↔ (nd.end_ - nd.start ≤ cap ∨ nd.radiusSq = 0) := by
  intro nd hnd
  exact buildRec_leaf_iff cap _ 0 0 0 nd hnd

/-- Witness for C4 at a concrete input: a single point with capacity 1 builds
a one-leaf tree, and the equivalence instantiates to its root. -/
theorem c4_leaf_iff_capacity_witness :
    ((⟨0, 0, 1, 0, 0, true, ⟨0, 0, 0⟩, 0, []⟩ : KDNode).is_leaf = true ↔
      (1 - 0 ≤ 1 ∨ (0 : ℚ) = 0)) := by
  have hnodes : (build_tree [⟨0, 0, 0⟩] [⟨0, 0, 1⟩] 1).nodes =
      [⟨0, 0, 1, 0, 0, true, ⟨0, 0, 0⟩, 0, []⟩] := by
    simp only [build_tree]
    rw [buildRec, dif_pos (Or.inl (by decide))]
    norm_num [boxCenter, radiusSqOf, coordMin, coordMax, coordAx, distSq,
      List.range_succ, List.range_zero, List.getD]
  exact c4_leaf_iff_capacity [⟨0, 0, 0⟩] [⟨0, 0, 1⟩] 1
    ⟨0, 0, 1, 0, 0, true, ⟨0, 0, 0⟩, 0, []⟩ (by rw [hnodes]; exact List.mem_singleton.mpr rfl)

/-- **C5.** `build_tree` is a pure, deterministic function: two runs on
identical inputs produce identical trees — the same node array, the same
reordered point and normal arrays, the same `orig_idxs` permutation and the
same height. -/
theorem c5_build_tree_deterministic (pts normals : List Vec3) (cap : ℕ)
    (t1 t2 : KDTree) (h1 : t1 = build_tree pts normals cap)
    (h2 : t2 = build_tree pts normals cap) :
    t1.nodes = t2.nodes ∧ t1.pts = t2.pts ∧ t1.normals = t2.normals ∧
      t1.orig_idxs = t2.orig_idxs ∧ t1.max_height = t2.max_height := by
  subst h1
  subst h2
  exact ⟨rfl, rfl, rfl, rfl, rfl⟩

/-- Witness for C5 at a concrete input: two runs on the same two points. -/
theorem c5_build_tree_deterministic_witness :
    (build_tree [⟨0, 0, 0⟩, ⟨4, 0, 0⟩] [⟨0, 0, 1⟩, ⟨0, 0, 1⟩] 1).nodes =
        (build_tree [⟨0, 0, 0⟩, ⟨4, 0, 0⟩] [⟨0, 0, 1⟩, ⟨0, 0, 1⟩] 1).nodes ∧
      (build_tree [⟨0, 0, 0⟩, ⟨4, 0, 0⟩] [⟨0, 0, 1⟩, ⟨0, 0, 1⟩] 1).pts =
        (build_tree [⟨0, 0, 0⟩, ⟨4, 0, 0⟩] [⟨0, 0, 1⟩, ⟨0, 0, 1⟩] 1).pts ∧
      (build_tree [⟨0, 0, 0⟩, ⟨4, 0, 0⟩] [⟨0, 0, 1⟩, ⟨0, 0, 1⟩] 1).normals =
        (build_tree [⟨0, 0, 0⟩, ⟨4, 0, 0⟩] [⟨0, 0, 1⟩, ⟨0, 0, 1⟩] 1).normals ∧
      (build_tree [⟨0, 0, 0⟩, ⟨4, 0, 0⟩] [⟨0, 0, 1⟩, ⟨0, 0, 1⟩] 1).orig_idxs =
        (build_tree [⟨0, 0, 0⟩, ⟨4, 0, 0⟩] [⟨0, 0, 1⟩, ⟨0, 0, 1⟩] 1).orig_idxs ∧
      (build_tree [⟨0, 0, 0⟩, ⟨4, 0, 0⟩] [⟨0, 0, 1⟩, ⟨0, 0, 1⟩] 1).max_height =
        (build_tree [⟨0, 0, 0⟩, ⟨4, 0, 0⟩] [⟨0, 0, 1⟩, ⟨0, 0, 1⟩] 1).max_height :=
  c5_build_tree_deterministic [⟨0, 0, 0⟩, ⟨4, 0, 0⟩] [⟨0, 0, 1⟩, ⟨0, 0, 1⟩] 1 _ _ rfl rfl

/-- **C6.** The `orig_idxs` array of a built tree is a permutation of
`{0, …, len(points) − 1}`: the builder only reorders the tagged entries, whose
original indices start as exactly `0, …, n−1`. -/
theorem c6_orig_idx_permutation (pts normals : List Vec3) (cap : ℕ) :
    ((build_tree pts normals cap).orig_idxs).Perm (List.range pts.length) := by
  have hperm := buildRec_perm cap ((List.range pts.length).map
      (fun i => PtEntry.mk (pts.getD i ⟨0, 0, 0⟩) (normals.getD i ⟨0, 0, 0⟩) i)) 0 0 0
  have hmap := hperm.map (fun e => e.origIdx)
  have hend : (((List.range pts.length).map
      (fun i => PtEntry.mk (pts.getD i ⟨0, 0, 0⟩) (normals.getD i ⟨0, 0, 0⟩) i)).map
        (fun e => e.origIdx)) = List.range pts.length := by
    rw [List.map_map]
    have hco : ((fun e : PtEntry => e.origIdx) ∘
        fun i => PtEntry.mk (pts.getD i ⟨0, 0, 0⟩) (normals.getD i ⟨0, 0, 0⟩) i) =
          fun i => i := rfl
    rw [hco, List.map_id']
  exact hend ▸ hmap

/-- A tree node as the dual-tree traversal sees it (spec section 4.3): stable
index, point range, bounding ball, leaf flag, and child subtrees. -/
inductive FTree where
  | mk (idx : ℕ) (start : ℕ) (end_ : ℕ) (center : Vec3) (radius : ℚ)
      (is_leaf : Bool) (children : List FTree)

def FTree.idx : FTree → ℕ
  | ⟨i, _, _, _, _, _, _⟩ => i

def FTree.start : FTree → ℕ
  | ⟨_, st, _, _, _, _, _⟩ => st

def FTree.end_ : FTree → ℕ
  | ⟨_, _, en, _, _, _, _⟩ => en

def FTree.center : FTree → Vec3
  | ⟨_, _, _, c, _, _, _⟩ => c

def FTree.radius : FTree → ℚ
  | ⟨_, _, _, _, r, _, _⟩ => r

def FTree.is_leaf : FTree → Bool
  | ⟨_, _, _, _, _, lf, _⟩ => lf

def FTree.children : FTree → List FTree
  | ⟨_, _, _, _, _, _, cs⟩ => cs

/-- Modelled from the spec: the MAC test of section 4.3.  The defining test is
`d > (r_o + r_s)/θ`; the source's equivalent formulation is
`max(r_o,r_s)/(d − min) < θ`, and the spec mandates the stricter of the two at
a boundary, so both are required.  `d` is a Euclidean norm, so each comparison
is phrased on squares (`p < d ↔ p² < d²` for `p, d ≥ 0`): the second test
unfolds to `d > min ∧ max + θ·min < θ·d`. -/
def wellSep (theta : ℚ) (o s : FTree) : Bool :=
  let dSq := distSq o.center s.center
  let ro := o.radius
  let rs := s.radius
  let mx := max ro rs
  let mn := min ro rs
  decide ((ro + rs) ^ 2 < dSq * theta ^ 2) &&
    (decide (mn ^ 2 < dSq) && decide ((mx + theta * mn) ^ 2 < theta ^ 2 * dSq))

/-- The four interaction lists the traversal produces, as node pairs.  (The
`MatrixFreeOp` store keeps only the two `idx` fields of each pair; the model
keeps the nodes so that geometric statements can be made about the pairs.) -/
structure InteractionLists where
  m2l : List (FTree × FTree)
  p2p : List (FTree × FTree)
  p2l : List (FTree × FTree)
  m2p : List (FTree × FTree)

/-- Pair insertion with the `MatrixFreeOp::insert` guard of the source: a pair
where either node owns no points is skipped (spec: empty nodes contribute no
entries). -/
def insertPair (l : List (FTree × FTree)) (o s : FTree) : List (FTree × FTree) :=
  if o.end_ - o.start = 0 ∨ s.end_ - s.start = 0 then l else l ++ [(o, s)]

/-- Modelled from the spec: the dual-tree traversal of section 4.3
(`fmm_impl.cpp` is not in the source slice).  A well-separated pair is a
farfield entry — M2L between two internal nodes, P2L when the source side is a
leaf, M2P when the observation side is a leaf, P2P when both are; a
non-separated leaf-leaf pair is nearfield P2P; otherwise the traversal
descends the children of the node with the larger radius (a leaf is never
descended; a tie descends the source).  `fuel` bounds the recursion depth. -/
def fmmTraverse (theta : ℚ) : ℕ → FTree → FTree → InteractionLists → InteractionLists
  | 0, _, _, acc => acc
  | Nat.succ fuel, o, s, acc =>
    if wellSep theta o s then
      if o.is_leaf && s.is_leaf then { acc with p2p := insertPair acc.p2p o s }
      else if s.is_leaf then { acc with p2l := insertPair acc.p2l o s }
      else if o.is_leaf then { acc with m2p := insertPair acc.m2p o s }
      else { acc with m2l := insertPair acc.m2l o s }
    else if o.is_leaf && s.is_leaf then { acc with p2p := insertPair acc.p2p o s }
    else if s.is_leaf || (!o.is_leaf && decide (s.radius < o.radius)) then
      o.children.foldl (fun a c => fmmTraverse theta fuel c s a) acc
    else
      s.children.foldl (fun a c => fmmTraverse theta fuel o c a) acc

/-- Modelled from the spec: the interaction lists `build_fmm` / `fmmmmmmm`
precomputes — the traversal started at the pair of tree roots with empty
lists. -/
def fmmmmmmm_lists (theta : ℚ) (fuel : ℕ) (obs_tree src_tree : FTree) :
    InteractionLists :=
  fmmTraverse theta fuel obs_tree src_tree ⟨[], [], [], []⟩

/-- `t` occurs inside `root` (reflexive-transitive closure of the child
relation). -/
inductive IsSubtree : FTree → FTree → Prop
  | refl (t : FTree) : IsSubtree t t
  | child {t c p : FTree} (hc : c ∈ p.children) (h : IsSubtree t c) : IsSubtree t p

/-- All node radii in the tree are nonnegative (an invariant of any tree whose
radii are ball radii). -/
def radiiNonneg : FTree → Bool
  | FTree.mk _ _ _ _ r _ cs =>
      decide (0 ≤ r) && cs.attach.all (fun c => radiiNonneg c.val)
termination_by t => sizeOf t
decreasing_by
  have hlt := List.sizeOf_lt_of_mem c.2
  simp only [FTree.mk.sizeOf_spec]
  omega

/-- `radiiNonneg` passes from a node to each of its children. -/
theorem radiiNonneg_child {p c : FTree} (hc : c ∈ p.children)
    (h : radiiNonneg p = true) : radiiNonneg c = true := by
  cases p with
  | mk i st en ce r lf cs =>
      rw [radiiNonneg, Bool.and_eq_true, List.all_eq_true] at h
      exact h.2 ⟨c, hc⟩ (List.mem_attach _ _)

/-- Every subtree of a tree with nonnegative radii has nonnegative radius. -/
theorem radiiNonneg_sub {t root : FTree} (h : IsSubtree t root) :
    radiiNonneg root = true → 0 ≤ t.radius := by
  induction h with
  | refl =>
      intro hr
      cases t with
      | mk i st en ce r lf cs =>
          rw [radiiNonneg, Bool.and_eq_true, decide_eq_true_eq] at hr
          exact hr.1
  | child hc hsub ih =>
      intro hr
      exact ih (radiiNonneg_child hc hr)

/-- Every pair the traversal adds to the M2L list is well-separated and
consists of subtrees of the two root arguments; pairs already in the
accumulator are left alone. -/
theorem fmmTraverse_m2l_wellSep (theta : ℚ) :
    ∀ (fuel : ℕ) (o s : FTree) (acc : InteractionLists) (p : FTree × FTree),
      p ∈ (fmmTraverse theta fuel o s acc).m2l →
      p ∈ acc.m2l ∨
        (wellSep theta p.1 p.2 = true ∧ IsSubtree p.1 o ∧ IsSubtree p.2 s) := by
  intro fuel
  induction fuel with
  | zero =>
      intro o s acc p hp
      exact Or.inl hp
  | succ fuel ih =>
      intro o s acc p hp
      have hfold1 : ∀ (s : FTree) (L : List FTree) (acc : InteractionLists)
          (p : FTree × FTree),
          p ∈ (L.foldl (fun a c => fmmTraverse theta fuel c s a) acc).m2l →
          p ∈ acc.m2l ∨ ∃ c ∈ L,
            wellSep theta p.1 p.2 = true ∧ IsSubtree p.1 c ∧ IsSubtree p.2 s := by
        intro s L
        induction L with
        | nil =>
            intro acc p hp
            exact Or.inl hp
        | cons c t iht =>
            intro acc p hp
            rcases iht _ p hp with hin | ⟨c', hc', hrest⟩
            · rcases ih c s acc p hin with h | h
              · exact Or.inl h
              · exact Or.inr ⟨c, List.mem_cons_self c t, h⟩
            · exact Or.inr ⟨c', List.mem_cons_of_mem _ hc', hrest⟩
      have hfold2 : ∀ (o : FTree) (L : List FTree) (acc : InteractionLists)
          (p : FTree × FTree),
          p ∈ (L.foldl (fun a c => fmmTraverse theta fuel o c a) acc).m2l →
          p ∈ acc.m2l ∨ ∃ c ∈ L,
            wellSep theta p.1 p.2 = true ∧ IsSubtree p.1 o ∧ IsSubtree p.2 c := by
        intro o L
        induction L with
        | nil =>
            intro acc p hp
            exact Or.inl hp
        | cons c t iht =>
            intro acc p hp
            rcases iht _ p hp with hin | ⟨c', hc', hrest⟩
            · rcases ih o c acc p hin with h | h
              · exact Or.inl h
              · exact Or.inr ⟨c, List.mem_cons_self c t, h⟩
            · exact Or.inr ⟨c', List.mem_cons_of_mem _ hc', hrest⟩
      simp only [fmmTraverse] at hp
      by_cases hws : wellSep theta o s = true
      · rw [if_pos hws] at hp
        by_cases h1 : (o.is_leaf && s.is_leaf) = true
        · rw [if_pos h1] at hp
          exact Or.inl hp
        · rw [if_neg h1] at hp
          by_cases h2 : s.is_leaf = true
          · rw [if_pos h2] at hp
            exact Or.inl hp
          · rw [if_neg h2] at hp
            by_cases h3 : o.is_leaf = true
            · rw [if_pos h3] at hp
              exact Or.inl hp
            · rw [if_neg h3] at hp
              rw [insertPair] at hp
              by_cases hz : o.end_ - o.start = 0 ∨ s.end_ - s.start = 0
              · rw [if_pos hz] at hp
                exact Or.inl hp
              · rw [if_neg hz] at hp
                rcases List.mem_append.mp hp with hmem | hnew
                · exact Or.inl hmem
                · rcases List.mem_singleton.mp hnew with rfl
                  exact Or.inr ⟨hws, IsSubtree.refl o, IsSubtree.refl s⟩
      · rw [if_neg hws] at hp
        by_cases h1 : (o.is_leaf && s.is_leaf) = true
        · rw [if_pos h1] at hp
          exact Or.inl hp
        · rw [if_neg h1] at hp
          by_cases h2 : (s.is_leaf || (!o.is_leaf && decide (s.radius < o.radius))) = true
          · rw [if_pos h2] at hp
            rcases hfold1 s o.children acc p hp with h | ⟨c, hc, hw, hs1, hs2⟩
            · exact Or.inl h
            · exact Or.inr ⟨hw, IsSubtree.child hc hs1, hs2⟩
          · rw [if_neg h2] at hp
            rcases hfold2 o s.children acc p hp with h | ⟨c, hc, hw, hs1, hs2⟩
            · exact Or.inl h
            · exact Or.inr ⟨hw, hs1, IsSubtree.child hc hs2⟩

/-- **C1.** Every pair `(o, s)` the precomputation places in the M2L
interaction list satisfies the MAC: `||c_o − c_s|| > (r_o + r_s) / mac`
(for positive `mac` and trees whose radii are nonnegative, as ball radii
are). -/
theorem c1_m2l_mac_safety (theta : ℚ) (fuel : ℕ) (obs_tree src_tree : FTree)
    (p : FTree × FTree) (htheta : 0 < theta)
    (hobs : radiiNonneg obs_tree = true) (hsrc : radiiNonneg src_tree = true)
    (hp : p ∈ (fmmmmmmm_lists theta fuel obs_tree src_tree).m2l) :
    ((p.1.radius + p.2.radius : ℚ) : ℝ) / (theta : ℝ) <
      Real.sqrt ((distSq p.1.center p.2.center : ℚ) : ℝ) := by
  rcases fmmTraverse_m2l_wellSep theta fuel obs_tree src_tree ⟨[], [], [], []⟩ p hp
    with hin | ⟨hws, hs1, hs2⟩
  · simp at hin
  · have hr1 : 0 ≤ p.1.radius := radiiNonneg_sub hs1 hobs
    have hr2 : 0 ≤ p.2.radius := radiiNonneg_sub hs2 hsrc
    have hA : (p.1.radius + p.2.radius) ^ 2 <
        distSq p.1.center p.2.center * theta ^ 2 := by
      simp only [wellSep, Bool.and_eq_true, decide_eq_true_eq] at hws
      exact hws.1
    have hT : (0 : ℝ) < (theta : ℝ) := by exact_mod_cast htheta
    have hR : (0 : ℝ) ≤ ((p.1.radius + p.2.radius : ℚ) : ℝ) := by
      exact_mod_cast add_nonneg hr1 hr2
    have hAR : (((p.1.radius + p.2.radius : ℚ) : ℝ)) ^ 2 <
        ((distSq p.1.center p.2.center : ℚ) : ℝ) * (theta : ℝ) ^ 2 := by
      exact_mod_cast hA
    have hsq : (((p.1.radius + p.2.radius : ℚ) : ℝ) / (theta : ℝ)) ^ 2 <
        ((distSq p.1.center p.2.center : ℚ) : ℝ) := by
      rw [div_pow, div_lt_iff (by positivity)]
      linarith
    calc ((p.1.radius + p.2.radius : ℚ) : ℝ) / (theta : ℝ)
        = Real.sqrt ((((p.1.radius + p.2.radius : ℚ) : ℝ) / (theta : ℝ)) ^ 2) :=
          (Real.sqrt_sq (by positivity)).symm
      _ < Real.sqrt ((distSq p.1.center p.2.center : ℚ) : ℝ) :=
          Real.sqrt_lt_sqrt (by positivity) hsq

/-- Witness for C1 at a concrete input: two unit-radius internal nodes ten
units apart, `mac = 1/2`, one step of traversal puts the root pair in M2L and
the MAC inequality instantiates to it. -/
theorem c1_m2l_mac_safety_witness :
    0 < (1 / 2 : ℚ) ∧
      radiiNonneg (FTree.mk 0 0 2 ⟨0, 0, 0⟩ 1 false []) = true ∧
      radiiNonneg (FTree.mk 1 0 2 ⟨10, 0, 0⟩ 1 false []) = true ∧
      (FTree.mk 0 0 2 ⟨0, 0, 0⟩ 1 false [], FTree.mk 1 0 2 ⟨10, 0, 0⟩ 1 false []) ∈
        (fmmmmmmm_lists (1 / 2) 1 (FTree.mk 0 0 2 ⟨0, 0, 0⟩ 1 false [])
          (FTree.mk 1 0 2 ⟨10, 0, 0⟩ 1 false [])).m2l ∧
      (((FTree.mk 0 0 2 ⟨0, 0, 0⟩ 1 false []).radius +
            (FTree.mk 1 0 2 ⟨10, 0, 0⟩ 1 false []).radius : ℚ) : ℝ) / ((1 / 2 : ℚ) : ℝ) <
        Real.sqrt ((distSq (FTree.mk 0 0 2 ⟨0, 0, 0⟩ 1 false []).center
            (FTree.mk 1 0 2 ⟨10, 0, 0⟩ 1 false []).center : ℚ) : ℝ) := by
  have hth : (0 : ℚ) < 1 / 2 := by norm_num
  have ho : radiiNonneg (FTree.mk 0 0 2 ⟨0, 0, 0⟩ 1 false []) = true := by
    rw [radiiNonneg]
    norm_num
  have hs : radiiNonneg (FTree.mk 1 0 2 ⟨10, 0, 0⟩ 1 false []) = true := by
    rw [radiiNonneg]
    norm_num
  have hws : wellSep (1 / 2) (FTree.mk 0 0 2 ⟨0, 0, 0⟩ 1 false [])
      (FTree.mk 1 0 2 ⟨10, 0, 0⟩ 1 false []) = true := by
    simp only [wellSep, Bool.and_eq_true, decide_eq_true_eq, FTree.radius, FTree.center]
    norm_num [distSq]
  have hmem : (FTree.mk 0 0 2 ⟨0, 0, 0⟩ 1 false [],
      FTree.mk 1 0 2 ⟨10, 0, 0⟩ 1 false []) ∈
        (fmmmmmmm_lists (1 / 2) 1 (FTree.mk 0 0 2 ⟨0, 0, 0⟩ 1 false [])
          (FTree.mk 1 0 2 ⟨10, 0, 0⟩ 1 false [])).m2l := by
    rw [fmmmmmmm_lists]
    simp only [fmmTraverse]
    rw [if_pos hws]
    norm_num [FTree.is_leaf, insertPair, FTree.end_, FTree.start]
  exact ⟨hth, ho, hs, hmem,
    c1_m2l_mac_safety (1 / 2) 1 (FTree.mk 0 0 2 ⟨0, 0, 0⟩ 1 false [])
      (FTree.mk 1 0 2 ⟨10, 0, 0⟩ 1 false []) _ hth ho hs hmem⟩

/-- Number of input blocks with row index `r` (the claim's per-row count). -/
def cntRow (rows : List ℕ) (r : ℕ) : ℕ :=
  (rows.filter (fun x => decide (x = r))).length

/-- First data slot of row `r` in the CSR layout: the number of blocks in
earlier rows. -/
def startRow (rows : List ℕ) (r : ℕ) : ℕ :=
  ∑ j in Finset.range r, cntRow rows j

/-- The histogram loop of `make_bsr_matrix`:
`for n < n_blocks: indptr[rows[n]]++` over a zeroed array. -/
def bsrHist (rows : List ℕ) : ℕ → ℕ :=
  rows.foldl (fun ip r => Function.update ip r (ip r + 1)) (fun _ => 0)

/-- The exclusive-scan loop: `for i < n_row_blocks: temp = indptr[i];
indptr[i] = cumsum; cumsum += temp`, returning the array and the final
`cumsum`. -/
def bsrScan (ip : ℕ → ℕ) (n_row_blocks : ℕ) : (ℕ → ℕ) × ℕ :=
  (List.range n_row_blocks).foldl
    (fun st i => (Function.update st.1 i st.2, st.2 + st.1 i)) (ip, 0)

/-- The first `N` iterations of the placement loop: for block `n`,
`dest = indptr[rows[n]]`, `indices[dest] = cols[n]`, copy the `blocksize`
doubles of block `n` into `data[dest*blocksize ...]`, then `indptr[rows[n]]++`.
State: (indptr cursor, indices, data). -/
def bsrPlaceN (rows cols : List ℕ) (in_data : List ℚ) (blocksize : ℕ)
    (ip0 : ℕ → ℕ) (N : ℕ) : (ℕ → ℕ) × (ℕ → ℕ) × (ℕ → ℚ) :=
  (List.range N).foldl
    (fun st n =>
      (Function.update st.1 (rows.getD n 0) (st.1 (rows.getD n 0) + 1),
       Function.update st.2.1 (st.1 (rows.getD n 0)) (cols.getD n 0),
       (List.range blocksize).foldl
         (fun d k => Function.update d (st.1 (rows.getD n 0) * blocksize + k)
           (in_data.getD (n * blocksize + k) 0)) st.2.2))
    (ip0, fun _ => 0, fun _ => 0)

/-- The full placement loop runs over all `n_blocks = rows.length` blocks. -/
def bsrPlace (rows cols : List ℕ) (in_data : List ℚ) (blocksize : ℕ)
    (ip0 : ℕ → ℕ) : (ℕ → ℕ) × (ℕ → ℕ) × (ℕ → ℚ) :=
  bsrPlaceN rows cols in_data blocksize ip0 rows.length

/-- The final shift loop: `for i ≤ n_row_blocks: temp = indptr[i];
indptr[i] = last; last = temp`. -/
def bsrShift (ip : ℕ → ℕ) (n_row_blocks : ℕ) : ℕ → ℕ :=
  ((List.range (n_row_blocks + 1)).foldl
    (fun st i => (Function.update st.1 i st.2, st.1 i)) (ip, 0)).1

/-- `make_bsr_matrix` (`tectosaur/fmm_impl.hpp`, second part of the file,
lines 75-125): histogram of the block rows, exclusive scan over the first
`n_row_blocks` entries, `indptr[n_row_blocks] = n_blocks`, stable placement of
every block at its row cursor, and the final shift that turns the advanced
cursors back into row starts.  Returns `(data, indices, indptr)`; the arrays
are modelled as index-to-value maps. -/
def make_bsr_matrix (n_rows n_cols blockrows blockcols : ℕ)
    (in_data : List ℚ) (rows cols : List ℕ) : (ℕ → ℚ) × (ℕ → ℕ) × (ℕ → ℕ) :=
  let n_row_blocks := n_rows / blockrows
  let n_blocks := rows.length
  let blocksize := blockrows * blockcols
  let ip1 := bsrHist rows
  let ip2 := Function.update (bsrScan ip1 n_row_blocks).1 n_row_blocks n_blocks
  let res := bsrPlace rows cols in_data blocksize ip2
  (res.2.2, res.2.1, bsrShift res.1 n_row_blocks)

/-- Per-row count of a cons. -/
theorem cntRow_cons (a : ℕ) (t : List ℕ) (r : ℕ) :
    cntRow (a :: t) r = cntRow t r + (if a = r then 1 else 0) := by
  rw [cntRow, List.filter_cons]
  by_cases h : a = r
  · simp [cntRow, h]
  · simp [cntRow, h]

/-- Per-row counts are additive under append. -/
theorem cntRow_append (l1 l2 : List ℕ) (r : ℕ) :
    cntRow (l1 ++ l2) r = cntRow l1 r + cntRow l2 r := by
  simp [cntRow, List.filter_append]

/-- The histogram fold adds the per-row count to the initial array. -/
theorem bsrHist_aux (l : List ℕ) :
    ∀ (ip : ℕ → ℕ) (r : ℕ),
      (l.foldl (fun ip r => Function.update ip r (ip r + 1)) ip) r
        = ip r + cntRow l r := by
  induction l with
  | nil =>
      intro ip r
      simp [cntRow]
  | cons a t ih =>
      intro ip r
      rw [List.foldl_cons, ih, cntRow_cons]
      by_cases h : a = r
      · subst h
        simp [Function.update_apply]
        omega
      · simp [Function.update_apply, h]
        omega

/-- The histogram array holds the per-row block counts. -/
theorem bsrHist_eq (rows : List ℕ) (r : ℕ) : bsrHist rows r = cntRow rows r := by
  have h := bsrHist_aux rows (fun _ => 0) r
  simpa [bsrHist] using h

/-- The exclusive scan: final cumsum is the total, and entry `i < n` becomes
the prefix sum below `i` while later entries are untouched. -/
theorem bsrScan_spec (ip : ℕ → ℕ) (n : ℕ) :
    (bsrScan ip n).2 = (∑ j in Finset.range n, ip j) ∧
      ∀ i, (bsrScan ip n).1 i =
        if i < n then ∑ j in Finset.range i, ip j else ip i := by
  induction n with
  | zero =>
      constructor
      · simp [bsrScan]
      · intro i
        simp [bsrScan]
  | succ m ih =>
      have hstep : bsrScan ip (m + 1) =
          (Function.update (bsrScan ip m).1 m (bsrScan ip m).2,
           (bsrScan ip m).2 + (bsrScan ip m).1 m) := by
        rw [bsrScan, bsrScan, List.range_succ, List.foldl_append, List.foldl_cons,
          List.foldl_nil]
      constructor
      · rw [hstep]
        simp only
        rw [ih.1, ih.2 m, if_neg (lt_irrefl m), Finset.sum_range_succ]
      · intro i
        rw [hstep]
        simp only [Function.update_apply]
        by_cases him : i = m
        · subst him
          rw [if_pos rfl, ih.1, if_pos (Nat.lt_succ_self i)]
        · rw [if_neg him, ih.2 i]
          by_cases hlt : i < m
          · rw [if_pos hlt, if_pos (by omega)]
          · rw [if_neg hlt, if_neg (by omega)]

/-- The final shift: entry 0 becomes 0, entries `1..n_row_blocks` take the
previous entry's value, later entries are untouched. -/
theorem bsrShift_aux (ip : ℕ → ℕ) (M : ℕ) :
    ((List.range M).foldl (fun st i => (Function.update st.1 i st.2, st.1 i))
        ((ip, 0) : (ℕ → ℕ) × ℕ)).2
      = (if M = 0 then 0 else ip (M - 1)) ∧
    ∀ i, ((List.range M).foldl (fun st i => (Function.update st.1 i st.2, st.1 i))
        ((ip, 0) : (ℕ → ℕ) × ℕ)).1 i
      = if i < M then (if i = 0 then 0 else ip (i - 1)) else ip i := by
  induction M with
  | zero =>
      constructor
      · simp
      · intro i
        simp
  | succ m ih =>
      have hstep : (List.range (m + 1)).foldl
          (fun st i => (Function.update st.1 i st.2, st.1 i))
          ((ip, 0) : (ℕ → ℕ) × ℕ) =
        (Function.update
            ((List.range m).foldl (fun st i => (Function.update st.1 i st.2, st.1 i))
              ((ip, 0) : (ℕ → ℕ) × ℕ)).1 m
            ((List.range m).foldl (fun st i => (Function.update st.1 i st.2, st.1 i))
              ((ip, 0) : (ℕ → ℕ) × ℕ)).2,
         ((List.range m).foldl (fun st i => (Function.update st.1 i st.2, st.1 i))
              ((ip, 0) : (ℕ → ℕ) × ℕ)).1 m) := by
        rw [List.range_succ, List.foldl_append, List.foldl_cons, List.foldl_nil]
      constructor
      · rw [hstep]
        simp only
        rw [ih.2 m, if_neg (lt_irrefl m)]
        simp
      · intro i
        rw [hstep]
        simp only [Function.update_apply]
        by_cases him : i = m
        · subst him
          rw [if_pos rfl, ih.1, if_pos (Nat.lt_succ_self i)]
        · rw [if_neg him, ih.2 i]
          by_cases hlt : i < m
          · rw [if_pos hlt, if_pos (show i < m + 1 by omega)]
          · rw [if_neg hlt, if_neg (show ¬ i < m + 1 by omega)]

/-- `bsrShift` in terms of the input array. -/
theorem bsrShift_spec (ip : ℕ → ℕ) (nrb : ℕ) (i : ℕ) :
    bsrShift ip nrb i =
      if i < nrb + 1 then (if i = 0 then 0 else ip (i - 1)) else ip i := by
  rw [bsrShift]
  exact (bsrShift_aux ip (nrb + 1)).2 i

/-- One step of a fold over `List.range (m+1)` peels off the last index. -/
theorem foldl_range_succ {α : Type} (f : α → ℕ → α) (init : α) (m : ℕ) :
    (List.range (m + 1)).foldl f init = f ((List.range m).foldl f init) m := by
  rw [List.range_succ, List.foldl_append, List.foldl_cons, List.foldl_nil]

/-- Taking one more element appends the element at the old end. -/
theorem take_succ_getD (l : List ℕ) (m : ℕ) (h : m < l.length) :
    l.take (m + 1) = l.take m ++ [l.getD m 0] := by
  rw [List.take_succ]
  congr 1
  rw [List.getElem?_eq_getElem h]
  simp [List.getD_eq_getElem?_getD, List.getElem?_eq_getElem h]

/-- The slot the placement loop assigns to block `n`: its row's cursor start
plus the number of earlier blocks in the same row. -/
def destOf (rows : List ℕ) (ip0 : ℕ → ℕ) (n : ℕ) : ℕ :=
  ip0 (rows.getD n 0) + cntRow (rows.take n) (rows.getD n 0)

/-- After `N` placement steps the cursor of each row has advanced by the
number of processed blocks in that row. -/
theorem bsrPlaceN_fst (rows cols : List ℕ) (in_data : List ℚ) (bs : ℕ)
    (ip0 : ℕ → ℕ) :
    ∀ N, N ≤ rows.length → ∀ r,
      (bsrPlaceN rows cols in_data bs ip0 N).1 r = ip0 r + cntRow (rows.take N) r := by
  intro N
  induction N with
  | zero =>
      intro _ r
      simp [bsrPlaceN, cntRow]
  | succ m ih =>
      intro hN r
      simp only [bsrPlaceN] at ih ⊢
      rw [foldl_range_succ]
      simp only
      rw [Function.update_apply, take_succ_getD rows m (by omega), cntRow_append]
      have hsingle : cntRow [rows.getD m 0] r = if rows.getD m 0 = r then 1 else 0 := by
        rw [cntRow_cons]
        simp [cntRow]
      rw [hsingle]
      by_cases h : r = rows.getD m 0
      · rw [if_pos h, ih (by omega) (rows.getD m 0), if_pos h.symm, ← h]
        omega
      · rw [if_neg h, ih (by omega) r, if_neg (fun hh => h hh.symm)]
        omega

/-- The block-copy fold writes `src k` at `base + k` for `k < M` and leaves
every other position alone. -/
theorem copy_fold_get (src : ℕ → ℚ) (base : ℕ) :
    ∀ (M : ℕ) (d : ℕ → ℚ),
      (∀ k, k < M → ((List.range M).foldl
          (fun d k => Function.update d (base + k) (src k)) d) (base + k) = src k) ∧
      (∀ x, (∀ k, k < M → x ≠ base + k) → ((List.range M).foldl
          (fun d k => Function.update d (base + k) (src k)) d) x = d x) := by
  intro M
  induction M with
  | zero =>
      intro d
      constructor
      · intro k hk
        omega
      · intro x _
        simp
  | succ m ih =>
      intro d
      constructor
      · intro k hk
        rw [foldl_range_succ]
        rw [Function.update_apply]
        by_cases hkm : k = m
        · subst hkm
          rw [if_pos rfl]
        · rw [if_neg (by omega : ¬ (base + k = base + m))]
          exact (ih d).1 k (by omega)
      · intro x hx
        rw [foldl_range_succ]
        rw [Function.update_apply, if_neg (hx m (by omega))]
        exact (ih d).2 x (fun k hk => hx k (by omega))

/-- After `N` placement steps, `indices[destOf n] = cols[n]` for every
processed block `n`, provided distinct blocks get distinct slots. -/
theorem bsrPlaceN_indices (rows cols : List ℕ) (in_data : List ℚ) (bs : ℕ)
    (ip0 : ℕ → ℕ)
    (hinj : ∀ m n, m < rows.length → n < rows.length → m ≠ n →
      destOf rows ip0 m ≠ destOf rows ip0 n) :
    ∀ N, N ≤ rows.length → ∀ n, n < N →
      (bsrPlaceN rows cols in_data bs ip0 N).2.1 (destOf rows ip0 n) =
        cols.getD n 0 := by
  intro N
  induction N with
  | zero =>
      intro _ n hn
      omega
  | succ m ihN =>
      intro hN n hn
      have hcur : (bsrPlaceN rows cols in_data bs ip0 m).1 (rows.getD m 0) =
          destOf rows ip0 m := by
        rw [bsrPlaceN_fst rows cols in_data bs ip0 m (by omega), destOf]
      simp only [bsrPlaceN] at ihN hcur ⊢
      rw [foldl_range_succ]
      simp only
      rw [hcur, Function.update_apply]
      by_cases hnm : n = m
      · subst hnm
        rw [if_pos rfl]
      · rw [if_neg (hinj n m (by omega) (by omega) hnm)]
        exact ihN (by omega) n (by omega)

/-- After `N` placement steps, the `bs` values of each processed block `n`
sit unchanged at `data[destOf n * bs ...]`, provided distinct blocks get
distinct slots and blocks are nonempty. -/
theorem bsrPlaceN_data (rows cols : List ℕ) (in_data : List ℚ) (bs : ℕ)
    (ip0 : ℕ → ℕ) (hbs : 0 < bs)
    (hinj : ∀ m n, m < rows.length → n < rows.length → m ≠ n →
      destOf rows ip0 m ≠ destOf rows ip0 n) :
    ∀ N, N ≤ rows.length → ∀ n, n < N → ∀ k, k < bs →
      (bsrPlaceN rows cols in_data bs ip0 N).2.2 (destOf rows ip0 n * bs + k) =
        in_data.getD (n * bs + k) 0 := by
  intro N
  induction N with
  | zero =>
      intro _ n hn
      omega
  | succ m ihN =>
      intro hN n hn k hk
      have hcur : (bsrPlaceN rows cols in_data bs ip0 m).1 (rows.getD m 0) =
          destOf rows ip0 m := by
        rw [bsrPlaceN_fst rows cols in_data bs ip0 m (by omega), destOf]
      simp only [bsrPlaceN] at ihN hcur ⊢
      rw [foldl_range_succ]
      simp only
      rw [hcur]
      by_cases hnm : n = m
      · subst hnm
        exact (copy_fold_get (fun k => in_data.getD (n * bs + k) 0)
          (destOf rows ip0 n * bs) bs _).1 k hk
      · have havoid : ∀ k2, k2 < bs →
            destOf rows ip0 n * bs + k ≠ destOf rows ip0 m * bs + k2 := by
          intro k2 hk2 heq
          have hdiv : ∀ (q r : ℕ), r < bs → (q * bs + r) / bs = q := by
            intro q r hr
            rw [Nat.mul_comm q bs, Nat.mul_add_div hbs, Nat.div_eq_of_lt hr,
              Nat.add_zero]
          have hq : destOf rows ip0 n = destOf rows ip0 m := by
            have h1 := hdiv (destOf rows ip0 n) k hk
            have h2 := hdiv (destOf rows ip0 m) k2 hk2
            rw [← h1, ← h2, heq]
          exact hinj n m (by omega) (by omega) hnm hq
        rw [(copy_fold_get (fun k => in_data.getD (m * bs + k) 0)
          (destOf rows ip0 m * bs) bs _).2 _ havoid]
        exact ihN (by omega) n (by omega) k hk

/-- An in-range `getD` is a member of the list. -/
theorem getD_mem (l : List ℕ) (n : ℕ) (h : n < l.length) : l.getD n 0 ∈ l := by
  rw [List.getD_eq_getElem?_getD, List.getElem?_eq_getElem h]
  simpa using List.getElem_mem h

/-- Per-row counts grow with the prefix length. -/
theorem cntRow_take_mono (l : List ℕ) (r : ℕ) {a b : ℕ} (hab : a ≤ b) :
    cntRow (l.take a) r ≤ cntRow (l.take b) r := by
  have htt : (l.take b).take a = l.take a := by
    rw [List.take_take, Nat.min_eq_left hab]
  have hsub : (l.take a).Sublist (l.take b) := by
    rw [← htt]
    exact List.take_sublist _ _
  exact List.Sublist.length_le (hsub.filter _)

/-- Block `n` itself contributes one to the count of its row in the prefix. -/
theorem cntRow_take_succ_self (l : List ℕ) (n : ℕ) (h : n < l.length) :
    cntRow (l.take (n + 1)) (l.getD n 0) = cntRow (l.take n) (l.getD n 0) + 1 := by
  rw [take_succ_getD l n h, cntRow_append]
  have : cntRow [l.getD n 0] (l.getD n 0) = 1 := by
    simp [cntRow]
  rw [this]

/-- `startRow` advances by the row's count. -/
theorem startRow_succ (rows : List ℕ) (r : ℕ) :
    startRow rows (r + 1) = startRow rows r + cntRow rows r :=
  Finset.sum_range_succ _ r

/-- `startRow` is monotone. -/
theorem startRow_mono (rows : List ℕ) {r r' : ℕ} (h : r ≤ r') :
    startRow rows r ≤ startRow rows r' :=
  Finset.sum_le_sum_of_subset (Finset.range_subset.mpr h)

/-- Rows are laid out in disjoint slot intervals. -/
theorem startRow_add_cnt_le (rows : List ℕ) {r r' : ℕ} (h : r < r') :
    startRow rows r + cntRow rows r ≤ startRow rows r' := by
  rw [← startRow_succ]
  exact startRow_mono rows (by omega)

/-- When all rows are in range, the row counts sum to the number of blocks. -/
theorem startRow_total (rows : List ℕ) (nrb : ℕ) (H : ∀ r ∈ rows, r < nrb) :
    startRow rows nrb = rows.length := by
  induction rows with
  | nil => simp [startRow, cntRow]
  | cons a t ih =>
      have ha : a < nrb := H a (List.mem_cons_self a t)
      have ht : ∀ r ∈ t, r < nrb := fun r hr => H r (List.mem_cons_of_mem _ hr)
      rw [startRow]
      calc (∑ j in Finset.range nrb, cntRow (a :: t) j)
          = ∑ j in Finset.range nrb, (cntRow t j + if a = j then 1 else 0) :=
            Finset.sum_congr rfl (fun j _ => cntRow_cons a t j)
        _ = (∑ j in Finset.range nrb, cntRow t j) +
              ∑ j in Finset.range nrb, (if a = j then 1 else 0) :=
            Finset.sum_add_distrib
        _ = t.length + 1 := by
            rw [Finset.sum_ite_eq (Finset.range nrb) a (fun _ => 1),
              if_pos (Finset.mem_range.mpr ha)]
            rw [show (∑ j in Finset.range nrb, cntRow t j) = startRow t nrb from rfl,
              ih ht]
        _ = (a :: t).length := by simp

/-- Each block's slot lies inside its row's interval
`[startRow r, startRow r + cntRow r)`. -/
theorem destOf_bounds (rows : List ℕ) (ip0 : ℕ → ℕ)
    (hip : ∀ n, n < rows.length →
      ip0 (rows.getD n 0) = startRow rows (rows.getD n 0)) :
    ∀ m, m < rows.length →
      startRow rows (rows.getD m 0) ≤ destOf rows ip0 m ∧
      destOf rows ip0 m < startRow rows (rows.getD m 0) + cntRow rows (rows.getD m 0) := by
  intro m hm
  constructor
  · rw [destOf, hip m hm]
    omega
  · rw [destOf, hip m hm]
    have h1 := cntRow_take_succ_self rows m hm
    have h2 : cntRow (rows.take (m + 1)) (rows.getD m 0) ≤
        cntRow rows (rows.getD m 0) := by
      have := cntRow_take_mono rows (rows.getD m 0)
        (show m + 1 ≤ rows.length by omega)
      rwa [List.take_length] at this
    omega

/-- Distinct blocks are assigned distinct slots. -/
theorem destOf_inj (rows : List ℕ) (ip0 : ℕ → ℕ)
    (hip : ∀ n, n < rows.length →
      ip0 (rows.getD n 0) = startRow rows (rows.getD n 0)) :
    ∀ m n, m < rows.length → n < rows.length → m ≠ n →
      destOf rows ip0 m ≠ destOf rows ip0 n := by
  have hmono : ∀ m n, m < n → n < rows.length → rows.getD m 0 = rows.getD n 0 →
      destOf rows ip0 m < destOf rows ip0 n := by
    intro m n hmn hn hr
    rw [destOf, destOf, ← hr, hip m (by omega)]
    have h1 := cntRow_take_succ_self rows m (by omega)
    have h2 : cntRow (rows.take (m + 1)) (rows.getD m 0) ≤
        cntRow (rows.take n) (rows.getD m 0) :=
      cntRow_take_mono rows (rows.getD m 0) (show m + 1 ≤ n by omega)
    omega
  intro m n hm hn hmn
  by_cases hr : rows.getD m 0 = rows.getD n 0
  · rcases Nat.lt_or_ge m n with h | h
    · exact Nat.ne_of_lt (hmono m n h hn hr)
    · exact (Nat.ne_of_lt (hmono n m (by omega) hm hr.symm)).symm
  · rcases Nat.lt_or_ge (rows.getD m 0) (rows.getD n 0) with h | h
    · have hlt : destOf rows ip0 m < destOf rows ip0 n :=
        lt_of_lt_of_le (destOf_bounds rows ip0 hip m hm).2
          (le_trans (startRow_add_cnt_le rows h) (destOf_bounds rows ip0 hip n hn).1)
      exact Nat.ne_of_lt hlt
    · have h' : rows.getD n 0 < rows.getD m 0 := by omega
      have hlt : destOf rows ip0 n < destOf rows ip0 m :=
        lt_of_lt_of_le (destOf_bounds rows ip0 hip n hn).2
          (le_trans (startRow_add_cnt_le rows h') (destOf_bounds rows ip0 hip m hm).1)
      exact (Nat.ne_of_lt hlt).symm

/-- The combined behaviour of the four `make_bsr_matrix` phases, stated over
an arbitrary row-block count `nrb` dominating every row index: the shifted
cursor array is the CSR row-pointer `startRow`, and placement stores each
block's column index and data at its slot. -/
theorem bsr_phases (rows cols : List ℕ) (in_data : List ℚ) (bs nrb : ℕ)
    (hbs : 0 < bs) (H : ∀ r ∈ rows, r < nrb) :
    (∀ i, i ≤ nrb →
      bsrShift (bsrPlaceN rows cols in_data bs
          (Function.update (bsrScan (bsrHist rows) nrb).1 nrb rows.length)
          rows.length).1 nrb i = startRow rows i) ∧
    (∀ n, n < rows.length → ∃ dest, dest < rows.length ∧
      (bsrPlaceN rows cols in_data bs
          (Function.update (bsrScan (bsrHist rows) nrb).1 nrb rows.length)
          rows.length).2.1 dest = cols.getD n 0 ∧
      ∀ k, k < bs →
        (bsrPlaceN rows cols in_data bs
            (Function.update (bsrScan (bsrHist rows) nrb).1 nrb rows.length)
            rows.length).2.2 (dest * bs + k) = in_data.getD (n * bs + k) 0) := by
  set ip2 := Function.update (bsrScan (bsrHist rows) nrb).1 nrb rows.length
    with hip2def
  set pl := bsrPlaceN rows cols in_data bs ip2 rows.length with hpldef
  have hip2r : ∀ r, r < nrb → ip2 r = startRow rows r := by
    intro r hr
    rw [hip2def, Function.update_apply, if_neg (Nat.ne_of_lt hr),
      (bsrScan_spec (bsrHist rows) nrb).2 r, if_pos hr, startRow]
    exact Finset.sum_congr rfl (fun j _ => bsrHist_eq rows j)
  have hipd : ∀ n, n < rows.length →
      ip2 (rows.getD n 0) = startRow rows (rows.getD n 0) :=
    fun n hn => hip2r _ (H _ (getD_mem rows n hn))
  have hinj := destOf_inj rows ip2 hipd
  have hfst : ∀ r, pl.1 r = ip2 r + cntRow rows r := by
    intro r
    rw [hpldef, bsrPlaceN_fst rows cols in_data bs ip2
      rows.length (le_refl _) r, List.take_length]
  constructor
  · intro i hi
    rw [bsrShift_spec pl.1 nrb i, if_pos (Nat.lt_succ_of_le hi)]
    by_cases hz : i = 0
    · rw [if_pos hz, hz]
      simp [startRow]
    · rw [if_neg hz, hfst (i - 1),
        hip2r (i - 1) (Nat.lt_of_lt_of_le (Nat.pred_lt hz) hi)]
      have hsucc := startRow_succ rows (i - 1)
      have hi1 : i - 1 + 1 = i := by omega
      rw [hi1] at hsucc
      omega
  · intro n hn
    refine ⟨destOf rows ip2 n, ?_, ?_, ?_⟩
    · have hb := (destOf_bounds rows ip2 hipd n hn).2
      have hrn : rows.getD n 0 < nrb := H _ (getD_mem rows n hn)
      have hle := startRow_add_cnt_le rows hrn
      have htot := startRow_total rows nrb H
      omega
    · rw [hpldef]
      exact bsrPlaceN_indices rows cols in_data bs ip2 hinj
        rows.length (le_refl _) n hn
    · intro k hk
      rw [hpldef]
      exact bsrPlaceN_data rows cols in_data bs ip2 hbs hinj
        rows.length (le_refl _) n hn k hk

/-- **C10.** For inputs whose row indices all lie below `n_rows / blockrows`,
`make_bsr_matrix` returns `indptr` with `indptr[0] = 0`,
`indptr[n_row_blocks] = n_blocks`, monotone non-decreasing entries, and
`indptr[r+1] − indptr[r]` equal to the number of input blocks with row `r`;
moreover every block's `blockrows·blockcols` values are copied unchanged into
the data slot assigned to that block, with the block's column index stored at
the matching position of `indices`. -/
theorem c10_make_bsr_matrix (n_rows n_cols blockrows blockcols : ℕ)
    (in_data : List ℚ) (rows cols : List ℕ)
    (hbr : 0 < blockrows) (hbc : 0 < blockcols)
    (H : ∀ r ∈ rows, r < n_rows / blockrows) :
    (make_bsr_matrix n_rows n_cols blockrows blockcols in_data rows cols).2.2 0 = 0 ∧
    (make_bsr_matrix n_rows n_cols blockrows blockcols in_data rows cols).2.2
        (n_rows / blockrows) = rows.length ∧
    (∀ r r', r ≤ r' → r' ≤ n_rows / blockrows →
      (make_bsr_matrix n_rows n_cols blockrows blockcols in_data rows cols).2.2 r ≤
        (make_bsr_matrix n_rows n_cols blockrows blockcols in_data rows cols).2.2 r') ∧
    (∀ r, r < n_rows / blockrows →
      (make_bsr_matrix n_rows n_cols blockrows blockcols in_data rows cols).2.2 (r + 1) -
        (make_bsr_matrix n_rows n_cols blockrows blockcols in_data rows cols).2.2 r
        = cntRow rows r) ∧
    (∀ n, n < rows.length → ∃ dest, dest < rows.length ∧
      (make_bsr_matrix n_rows n_cols blockrows blockcols in_data rows cols).2.1 dest
          = cols.getD n 0 ∧
      ∀ k, k < blockrows * blockcols →
        (make_bsr_matrix n_rows n_cols blockrows blockcols in_data rows cols).1
            (dest * (blockrows * blockcols) + k)
          = in_data.getD (n * (blockrows * blockcols) + k) 0) := by
  have hbs : 0 < blockrows * blockcols := Nat.mul_pos hbr hbc
  obtain ⟨hptr, hplace⟩ :=
    bsr_phases rows cols in_data (blockrows * blockcols) (n_rows / blockrows) hbs H
  have hMd : (make_bsr_matrix n_rows n_cols blockrows blockcols in_data rows cols).1
      = (bsrPlaceN rows cols in_data (blockrows * blockcols)
          (Function.update (bsrScan (bsrHist rows) (n_rows / blockrows)).1
            (n_rows / blockrows) rows.length) rows.length).2.2 := rfl
  have hMi : (make_bsr_matrix n_rows n_cols blockrows blockcols in_data rows cols).2.1
      = (bsrPlaceN rows cols in_data (blockrows * blockcols)
          (Function.update (bsrScan (bsrHist rows) (n_rows / blockrows)).1
            (n_rows / blockrows) rows.length) rows.length).2.1 := rfl
  have hMp : (make_bsr_matrix n_rows n_cols blockrows blockcols in_data rows cols).2.2
      = bsrShift (bsrPlaceN rows cols in_data (blockrows * blockcols)
          (Function.update (bsrScan (bsrHist rows) (n_rows / blockrows)).1
            (n_rows / blockrows) rows.length) rows.length).1
          (n_rows / blockrows) := rfl
  refine ⟨?_, ?_, ?_, ?_, ?_⟩
  · rw [hMp, hptr 0 (Nat.zero_le _)]
    simp [startRow]
  · rw [hMp, hptr (n_rows / blockrows) (le_refl _), startRow_total rows _ H]
  · intro r r' hrr hr'
    rw [hMp, hptr r (le_trans hrr hr'), hptr r' hr']
    exact startRow_mono rows hrr
  · intro r hr
    rw [hMp, hptr (r + 1) (Nat.succ_le_of_lt hr), hptr r (le_of_lt hr),
      startRow_succ rows r]
    exact Nat.add_sub_cancel_left _ _
  · intro n hn
    obtain ⟨dest, hd1, hd2, hd3⟩ := hplace n hn
    refine ⟨dest, hd1, ?_, ?_⟩
    · rw [hMi]
      exact hd2
    · intro k hk
      rw [hMd]
      exact hd3 k hk

/-- Witness for C10 at a concrete input: two 2×1 blocks in a 4×2 matrix
(rows [1, 0]), every row index below `4 / 2 = 2`. -/
theorem c10_make_bsr_matrix_witness :
    (make_bsr_matrix 4 2 2 1 [5, 6, 7, 8] [1, 0] [0, 1]).2.2 0 = 0 ∧
      (make_bsr_matrix 4 2 2 1 [5, 6, 7, 8] [1, 0] [0, 1]).2.2 (4 / 2) = 2 := by
  have h := c10_make_bsr_matrix 4 2 2 1 [5, 6, 7, 8] [1, 0] [0, 1]
    (by decide) (by decide) (by decide)
  exact ⟨h.1, h.2.1⟩
